import Mathlib

/-!
Verification of the signal library (a reactive value container with change
notification).  The development shallowly embeds the source:

* `Mitt` embeds the internal event emitter (`mitt.ts`): an ordered list of
  handler registrations with `on` (push), `off` (splice at
  `indexOf(handler) >>> 0`) and `emit` (iterate over a `slice()` snapshot).
  Handler functions are represented by identities (`Nat`); JavaScript
  reference equality `!==` between two handler values is inequality of
  identities.  For claims about mutation during delivery, each handler is
  given a script of add/remove actions it performs on the live handler list
  when invoked.
* `Mod` embeds the identity-equality `Signal` (`mod.ts`): a current value
  plus an emitter.  Values are likewise represented up to JavaScript
  identity, so `!==` is `≠` on an arbitrary type with decidable equality.
-/

namespace Mitt

/-- JavaScript `>>> 0`: reinterpret an integer as an unsigned 32-bit value. -/
def u32 (i : Int) : Nat := (i % (2 ^ 32)).toNat

/-- JavaScript `Array.prototype.indexOf`: index of the first occurrence of `h`,
`-1` when `h` does not occur. -/
def jsIndexOf (h : Nat) : List Nat → Int
  | [] => -1
  | x :: xs =>
    if x = h then 0
    else
      let r := jsIndexOf h xs
      if r = -1 then -1 else r + 1

/-- The `mitt.ts` `off` operation with a handler argument, which is also the behaviour of
the unsubscribe closure returned by `Signal.onChange`:
`handlers.splice(handlers.indexOf(handler) >>> 0, 1)`.
`List.eraseIdx` at an index past the end leaves the list unchanged, exactly
as `splice(i, 1)` does for `i ≥ length` (JavaScript array lengths are below
`2 ^ 32`, so `(-1) >>> 0 = 2 ^ 32 - 1` is always past the end). -/
def off (h : Nat) (l : List Nat) : List Nat := l.eraseIdx (u32 (jsIndexOf h l))

/-- The `mitt.ts` `on` operation (the name `on` is reserved in Lean):
`handlers.push(handler)`. -/
def onReg (h : Nat) (l : List Nat) : List Nat := l ++ [h]

/-- An action a handler may perform on the emitter it is registered with
while it is being invoked: register a handler or unregister one. -/
inductive Act : Type
  | add : Nat → Act
  | remove : Nat → Act
deriving DecidableEq

/-- Apply one handler action to the live handler list. -/
def applyAct (l : List Nat) : Act → List Nat
  | .add h => onReg h l
  | .remove h => off h l

/-- Apply a handler's script of actions, in order, to the live handler list. -/
def applyActs (l : List Nat) (acts : List Act) : List Nat := acts.foldl applyAct l

/-- The recursion underlying `emit`: walk the snapshot, invoking each
handler (recording the invocation `(handler, value)` and letting the
handler's script mutate the live list).  Returns the invocation trace in
order together with the final live handler list. -/
def emitFrom {V : Type} (beh : Nat → List Act) (v : V) :
    List Nat → List Nat → List (Nat × V) × List Nat
  | [], live => ([], live)
  | h :: rest, live =>
    let live2 := applyActs live (beh h)
    let p := emitFrom beh v rest live2
    ((h, v) :: p.1, p.2)

/-- The `mitt.ts` `emit` operation:
`handlers.slice().map((handler) => \x7b handler(evt) \x7d)`.
The iteration runs over a snapshot (`slice()`) of the handler list taken
when `emit` begins, while the handlers' own add/remove actions operate on
the live list. -/
def emit {V : Type} (beh : Nat → List Act) (v : V) (handlers : List Nat) :
    List (Nat × V) × List Nat :=
  emitFrom beh v handlers handlers

end Mitt

namespace Mod

/-- The state of an identity-equality `Signal` (`mod.ts`): the current value
`#val` and the handler list of its emitter. -/
structure SignalSt (V : Type) where
  val : V
  handlers : List Nat
deriving DecidableEq

/-- The `mod.ts` `Signal.update` operation:
`if (this.#val !== val) { this.#val = val; this.#e.emit(val) }`.
Returns the new state together with the trace of observer invocations. -/
def update {V : Type} [DecidableEq V] (beh : Nat → List Mitt.Act)
    (st : SignalSt V) (v : V) : SignalSt V × List (Nat × V) :=
  if st.val ≠ v then
    let p := Mitt.emit beh v st.handlers
    (⟨v, p.2⟩, p.1)
  else (st, [])

end Mod

namespace MittEx

/-- Whether an invocation of `emit` raised an exception that escaped to the
caller.  `mitt.ts` `emit` runs `handlers.slice().map((handler) => { handler(evt) })`
with no `try`/`catch`, so the first handler that throws aborts the `map`
iteration and the exception propagates. -/
def emitEx {V : Type} (thr : Nat → Bool) (v : V) : List Nat → List (Nat × V) × Bool
  | [] => ([], false)
  | h :: rest =>
    if thr h then ([(h, v)], true)
    else
      let p := emitEx thr v rest
      ((h, v) :: p.1, p.2)

/-- The `mod.ts` `Signal.update` operation when observers may throw: `this.#val = val` runs
before `this.#e.emit(val)`, so the value assignment is complete even when the
emitter raises.  Result: final state, invocation trace, and whether an
exception escaped to the caller of `update`. -/
def update {V : Type} [DecidableEq V] (thr : Nat → Bool)
    (st : Mod.SignalSt V) (v : V) : Mod.SignalSt V × List (Nat × V) × Bool :=
  if st.val ≠ v then
    let p := emitEx thr v st.handlers
    (⟨v, st.handlers⟩, p.1, p.2)
  else (st, [], false)

end MittEx

/-!
`Group` embeds the field-equality variant (`updateByFields` in the unnamed
source file, identical to `GroupSignal.update`).  JavaScript objects live in
a small heap: a reference (`Nat`) maps to an ordered list of fields
(key/value pairs, `Object.keys` order).  Field values are represented by
identities (`Nat`), so the per-field `!==` comparison is `≠`; a key absent
from an object reads as `undefined`, modelled by `Option`.  The spread
`{ ...value }` allocates a fresh reference holding the same fields.
-/

namespace Group

/-- The ordered own enumerable fields of a JavaScript object. -/
abbrev Fields := List (String × Nat)

/-- Property read `fs[k]` in JavaScript, `none` for `undefined` (absent key). -/
def fget : Fields → String → Option Nat
  | [], _ => none
  | (k2, v2) :: rest, k => if k2 = k then some v2 else fget rest k

/-- A heap of allocated objects: `next` is the next fresh reference, `mem`
maps allocated references to their fields. -/
structure Heap where
  next : Nat
  mem : List (Nat × Fields)

/-- Look up the fields of a reference in the heap. -/
def lookupRef : List (Nat × Fields) → Nat → Option Fields
  | [], _ => none
  | p :: rest, r => if p.1 = r then some p.2 else lookupRef rest r

/-- Look up the fields of a reference in the heap. -/
def Heap.find (H : Heap) (r : Nat) : Option Fields := lookupRef H.mem r

/-- A well-formed heap allocates only references below `next`, so `next`
itself is fresh. -/
abbrev Heap.wf (H : Heap) : Prop := ∀ p ∈ H.mem, p.1 < H.next

/-- Spread copy: allocate a fresh object carrying the given fields. -/
def Heap.alloc (H : Heap) (fs : Fields) : Heap × Nat :=
  (⟨H.next + 1, (H.next, fs) :: H.mem⟩, H.next)

/-- A JavaScript value as passed to `update`/`updateByFields`: a primitive
number, `null`, or an object reference. -/
inductive JVal : Type
  | num : Int → JVal
  | null : JVal
  | obj : Nat → JVal

/-- The state of the field-equality signal: the reference of the stored
object value and the registered handler identities. -/
structure GroupSt where
  val : Nat
  handlers : List Nat

/-- The `for (const key of Object.keys(value))` loop of `updateByFields`:
walk the argument's fields in order; at the first key whose field differs
from the stored object's (`(this.#val as any)[key] !== (value as any)[key]`),
assign `this.#val = { ...value }` (a fresh shallow copy), invoke every
handler with `this.#val`, and `break`.  `nfs` is the full field list of the
argument (used for the copy), `ofs` the stored object's fields. -/
def ubfLoop (H : Heap) (st : GroupSt) (nfs ofs : Fields) :
    Fields → Heap × GroupSt × List (Nat × Nat)
  | [] => (H, st, [])
  | (k, fv) :: rest =>
    if fget ofs k ≠ some fv then
      let a := H.alloc nfs
      (a.1, ⟨a.2, st.handlers⟩, st.handlers.map (fun h => (h, a.2)))
    else ubfLoop H st nfs ofs rest

/-- The `updateByFields` operation (= `GroupSignal.update`): rejects non-objects
(`typeof value !== "object" || value === null` throws
`Error("value must be an object")`), otherwise runs the field-comparison
loop.  On success returns the heap, the signal state and the invocation
trace; on a throw nothing is mutated (the error is surfaced to the caller
before any assignment). -/
def updateByFields (H : Heap) (st : GroupSt) (v : JVal) :
    Except String (Heap × GroupSt × List (Nat × Nat)) :=
  match v with
  | .num _ => .error "value must be an object"
  | .null => .error "value must be an object"
  | .obj r =>
    let nfs := (H.find r).getD []
    let ofs := (H.find st.val).getD []
    .ok (ubfLoop H st nfs ofs nfs)

/-- The loop's comparison outcome: some key of the new value maps to a field
differing from the stored object's, scanning in key order. -/
def hasDiff (ofs : Fields) : Fields → Bool
  | [] => false
  | (k, fv) :: rest => if fget ofs k ≠ some fv then true else hasDiff ofs rest

end Group

/-!
`Atomic` embeds the plain `Signal` of the variant source file that also
defines `subscribe` and `map` (the "Atomic signal class").  Its `update`
iterates `this.#handlers.forEach(...)` directly; for the claims settled here
no handler mutates the list during delivery, so the trace is the handler
list paired with the delivered value.  `subscribe` invokes the callback with
the current value before registering it via `onChange`.  `map` creates a
derived signal holding `fn(this.#val)` and registers on the source an
internal observer that calls `derived.update(fn(val))`; the two-signal
system built by `map` is embedded as `MapSys`.
-/

namespace Atomic

/-- The `Signal.onChange` operation: `this.#handlers.push(cb)`; the returned unsubscribe
closure is `Mitt.off cb` on the handler list. -/
def onChange {V : Type} (cb : Nat) (st : Mod.SignalSt V) : Mod.SignalSt V :=
  ⟨st.val, Mitt.onReg cb st.handlers⟩

/-- The `Signal.update` operation with inert handlers: on an identity-distinct value,
store it and invoke each registered handler with it, in order. -/
def update {V : Type} [DecidableEq V] (st : Mod.SignalSt V) (v : V) :
    Mod.SignalSt V × List (Nat × V) :=
  if st.val ≠ v then (⟨v, st.handlers⟩, st.handlers.map (fun h => (h, v)))
  else (st, [])

/-- The `Signal.subscribe` operation: `cb(this.#val); return this.onChange(cb)` —
the
callback is invoked once with the current value, then registered exactly as
by `onChange`. -/
def subscribe {V : Type} (cb : Nat) (st : Mod.SignalSt V) :
    Mod.SignalSt V × List (Nat × V) :=
  (onChange cb st, [(cb, st.val)])

/-- A handler registered on the source signal of a `map` pair: either a user
observer or the internal observer `(val) => derived.update(fn(val))`. -/
inductive SH : Type
  | user : Nat → SH
  | mapper : SH

/-- The two-signal system built by `t = s.map(fn)`: the source value, the
derived value, the source's handler list and the derived signal's (user)
handler list. -/
structure MapSys where
  srcVal : Nat
  derVal : Nat
  srcHs : List SH
  derHs : List Nat

/-- An observer invocation in the `map` system: a source observer or a
derived-signal observer receiving a value. -/
inductive Ev : Type
  | src : Nat → Nat → Ev
  | der : Nat → Nat → Ev
deriving DecidableEq

/-- Embeds `derived.update(v)`: the derived signal's own `Signal.update`. -/
def derUpdate (sys : MapSys) (v : Nat) : MapSys × List Ev :=
  if sys.derVal ≠ v then
    ({ sys with derVal := v }, sys.derHs.map (fun h => Ev.der h v))
  else (sys, [])

/-- Invoke one source handler with the new source value `v`: a user observer
records its invocation; the internal `map` observer runs
`derived.update(fn(v))`. -/
def runSrcHandler (fn : Nat → Nat) (v : Nat) (sys : MapSys) : SH → MapSys × List Ev
  | .user h => (sys, [Ev.src h v])
  | .mapper => derUpdate sys (fn v)

/-- Invoke the source handlers in order, threading the system state and
concatenating the invocation traces. -/
def runSrcHandlers (fn : Nat → Nat) (v : Nat) : MapSys → List SH → MapSys × List Ev
  | sys, [] => (sys, [])
  | sys, sh :: rest =>
    let p := runSrcHandler fn v sys sh
    let q := runSrcHandlers fn v p.1 rest
    (q.1, p.2 ++ q.2)

/-- Embeds `s.update(v)` on the source signal of the `map` system: on an
identity-distinct value, store it and run every source handler with it. -/
def srcUpdate (fn : Nat → Nat) (sys : MapSys) (v : Nat) : MapSys × List Ev :=
  if sys.srcVal ≠ v then
    runSrcHandlers fn v { sys with srcVal := v } sys.srcHs
  else (sys, [])

/-- Embeds `s.map(fn)` for a source signal with value `s0` and user observers `us`:
the derived signal is created holding `fn(s0)` with no observers yet, and
the internal observer is appended to the source's handler list. -/
def mkMap (fn : Nat → Nat) (s0 : Nat) (us : List Nat) : MapSys :=
  { srcVal := s0, derVal := fn s0, srcHs := us.map SH.user ++ [SH.mapper], derHs := [] }

end Atomic

namespace Mitt

theorem jsIndexOf_of_not_mem {h : Nat} {l : List Nat} (hn : h ∉ l) :
    jsIndexOf h l = -1 := by
  induction l with
  | nil => rfl
  | cons x xs ih =>
    simp only [List.mem_cons, not_or] at hn
    have hx : x ≠ h := fun e => hn.1 e.symm
    simp [jsIndexOf, hx, ih hn.2]

theorem jsIndexOf_append {h : Nat} {l₁ : List Nat} (l₂ : List Nat) (hn : h ∉ l₁) :
    jsIndexOf h (l₁ ++ h :: l₂) = (l₁.length : Int) := by
  induction l₁ with
  | nil => simp [jsIndexOf]
  | cons x xs ih =>
    simp only [List.mem_cons, not_or] at hn
    have hx : x ≠ h := fun e => hn.1 e.symm
    have hr := ih hn.2
    have hne : ((xs.length : Int)) ≠ -1 := by omega
    simp only [List.cons_append, jsIndexOf, List.append_eq, if_neg hx, hr, if_neg hne]
    simp only [List.length_cons]
    omega

theorem u32_natCast {n : Nat} (hn : n < 2 ^ 32) : u32 (n : Int) = n := by
  unfold u32
  have h1 : (n : Int) % (2 ^ 32) = (n : Int) :=
    Int.emod_eq_of_lt (Int.natCast_nonneg n) (by exact_mod_cast hn)
  rw [h1, Int.toNat_natCast]

theorem u32_neg_one : u32 (-1) = 2 ^ 32 - 1 := by decide

theorem eraseIdx_append_cons {α : Type} (h : α) (l₁ l₂ : List α) :
    (l₁ ++ h :: l₂).eraseIdx l₁.length = l₁ ++ l₂ := by
  induction l₁ with
  | nil => rfl
  | cons x xs ih => simpa [List.eraseIdx] using ih

theorem off_of_not_mem {h : Nat} {l : List Nat} (hn : h ∉ l)
    (hlen : l.length < 2 ^ 32) : off h l = l := by
  have : u32 (jsIndexOf h l) = 2 ^ 32 - 1 := by
    rw [jsIndexOf_of_not_mem hn, u32_neg_one]
  rw [off, this]
  exact List.eraseIdx_of_length_le (by omega)

theorem off_first_occurrence {h : Nat} {l₁ : List Nat} (l₂ : List Nat)
    (hn : h ∉ l₁) (hlen : (l₁ ++ h :: l₂).length < 2 ^ 32) :
    off h (l₁ ++ h :: l₂) = l₁ ++ l₂ := by
  have hl : l₁.length < 2 ^ 32 := by
    simp [List.length_append] at hlen
    omega
  rw [off, jsIndexOf_append l₂ hn, u32_natCast hl, eraseIdx_append_cons]

end Mitt

namespace Mitt

theorem emitFrom_fst {V : Type} (beh : Nat → List Act) (v : V)
    (snap : List Nat) : ∀ live : List Nat,
    (emitFrom beh v snap live).1 = snap.map (fun h => (h, v)) := by
  induction snap with
  | nil => intro live; rfl
  | cons h rest ih => intro live; simp [emitFrom, ih]

theorem count_map_pair {V : Type} [DecidableEq V] (v : V) (h : Nat) (l : List Nat) :
    (l.map (fun x => (x, v))).count (h, v) = l.count h := by
  induction l with
  | nil => rfl
  | cons x xs ih =>
    by_cases hx : x = h
    · subst hx; simp [List.count_cons, ih]
    · have hne : ¬((x, v) = (h, v)) := by simp [hx]
      simp [List.count_cons, ih, hx, hne]

/-- Claim C2: a delivery cycle invokes exactly the observers present when
delivery begins (a stable snapshot), in order, whatever add/remove actions
the observers perform mid-cycle: the trace equals the start list paired with
the delivered value, an observer not registered at the start is never
invoked in the cycle, and an observer registered once at the start is
invoked exactly once with the new value — in particular also when an
earlier observer unsubscribes it or itself. -/
theorem emit_snapshot_delivery {V : Type} [DecidableEq V] (beh : Nat → List Act)
    (v : V) (handlers : List Nat) :
    (emit beh v handlers).1 = handlers.map (fun h => (h, v)) ∧
    (∀ h, h ∉ handlers → ∀ w, (h, w) ∉ (emit beh v handlers).1) ∧
    (∀ h, handlers.count h = 1 → (emit beh v handlers).1.count (h, v) = 1) := by
  refine ⟨emitFrom_fst beh v handlers handlers, ?_, ?_⟩
  · intro h hn w hw
    rw [emit, emitFrom_fst] at hw
    rcases List.mem_map.mp hw with ⟨a, ha, he⟩
    exact hn (by cases he; exact ha)
  · intro h hc
    rw [emit, emitFrom_fst, count_map_pair, hc]

/-- Claim C2 witness: with observers `[1, 2, 3]` registered at the start and
observer `1` unsubscribing observer `3` when invoked, the cycle still
invokes `3` (and each of the three exactly once, in order). -/
theorem emit_snapshot_delivery_witness :
    (emit (fun h => if h = 1 then [Act.remove 3] else []) (10 : Nat) [1, 2, 3]).1
        = [(1, 10), (2, 10), (3, 10)] ∧
    (emit (fun h => if h = 1 then [Act.remove 3] else []) (10 : Nat) [1, 2, 3]).1.count
        (3, 10) = 1 := by
  refine ⟨?_, ?_⟩
  · simpa using
      (emit_snapshot_delivery (fun h => if h = 1 then [Act.remove 3] else [])
        (10 : Nat) [1, 2, 3]).1
  · exact (emit_snapshot_delivery (fun h => if h = 1 then [Act.remove 3] else [])
      (10 : Nat) [1, 2, 3]).2.2 3 (by decide)

/-- Claim C5 counterexample: the unsubscribe behaviour is not idempotent
when the same handler function is registered twice.  With handler `7`
registered twice, the first unsubscribe call removes one occurrence and the
second call removes the remaining one — a further effect on the observer
sequence. -/
theorem off_second_call_counterexample :
    off 7 [7, 7] = [7] ∧ off 7 (off 7 [7, 7]) = [] := by decide

/-- Claim C5 amended: the unsubscribe function removes the first occurrence
of its handler in the observer sequence at call time (one occurrence per
call), and is a no-op when the handler is absent.  Hence, when the handler
is registered only once, it removes exactly the occurrence its `onChange`
call registered and later invocations have no further effect; with
duplicate registrations, repeated calls keep removing the earliest
remaining occurrence. -/
theorem off_unsubscribe_amended (h : Nat) (l l₁ l₂ : List Nat) :
    (h ∉ l₁ → (l₁ ++ h :: l₂).length < 2 ^ 32 → off h (l₁ ++ h :: l₂) = l₁ ++ l₂) ∧
    (h ∉ l → l.length < 2 ^ 32 → off h l = l) ∧
    (h ∉ l₁ → h ∉ l₂ → (l₁ ++ h :: l₂).length < 2 ^ 32 →
      off h (off h (l₁ ++ h :: l₂)) = off h (l₁ ++ h :: l₂)) := by
  refine ⟨fun hn hl => off_first_occurrence l₂ hn hl,
    fun hn hl => off_of_not_mem hn hl, ?_⟩
  intro h1 h2 hl
  rw [off_first_occurrence l₂ h1 hl]
  have hm : h ∉ l₁ ++ l₂ := fun hx => (List.mem_append.mp hx).elim h1 h2
  have hlen : (l₁ ++ l₂).length < 2 ^ 32 := by
    simp [List.length_append] at hl ⊢
    omega
  exact off_of_not_mem hm hlen

/-- Claim C5 amended witness: handler `7` registered once among `[1, 7, 2]`
is removed exactly once; unsubscribing an absent handler is a no-op; and
repeating the unsubscribe after the single occurrence is gone has no
further effect. -/
theorem off_unsubscribe_amended_witness :
    off 7 ([1] ++ 7 :: [2]) = [1] ++ [2] ∧ off 7 [3] = [3] ∧
    off 7 (off 7 ([1] ++ 7 :: [2])) = off 7 ([1] ++ 7 :: [2]) := by
  have h := off_unsubscribe_amended 7 [3] [1] [2]
  exact ⟨h.1 (by decide) (by decide), h.2.1 (by decide) (by decide),
    h.2.2 (by decide) (by decide) (by decide)⟩

end Mitt

namespace Mod

/-- Claim C1: for the identity-equality `Signal`, `update v2` on current
value `v1` with `v2 ≠ v1` (JavaScript `!==`) stores `v2` (so `get()`
returns `v2`) and invokes every registered observer exactly once with `v2`,
in registration order (the trace is the handler list paired with `v2`);
with `v2 = v1` it performs no mutation and no notification. -/
theorem update_identity_equality {V : Type} [DecidableEq V]
    (beh : Nat → List Mitt.Act) (st : SignalSt V) (v : V) :
    (v ≠ st.val →
      (update beh st v).1.val = v ∧
      (update beh st v).2 = st.handlers.map (fun h => (h, v))) ∧
    (v = st.val → update beh st v = (st, [])) := by
  constructor
  · intro hne
    have hne2 : st.val ≠ v := fun e => hne e.symm
    simp [update, hne2, Mitt.emit, Mitt.emitFrom_fst]
  · intro he
    simp [update, he]

/-- Claim C1 witness: a signal holding `1` with observer `5`: `update 2`
stores `2` and invokes observer `5` once with `2`; `update 1` changes
nothing and notifies nobody. -/
theorem update_identity_equality_witness :
    ((update (fun _ => []) (⟨1, [5]⟩ : SignalSt Nat) 2).1.val = 2 ∧
      (update (fun _ => []) (⟨1, [5]⟩ : SignalSt Nat) 2).2 = [(5, 2)]) ∧
    update (fun _ => []) (⟨1, [5]⟩ : SignalSt Nat) 1 = (⟨1, [5]⟩, []) := by
  refine ⟨?_, (update_identity_equality (fun _ => []) (⟨1, [5]⟩ : SignalSt Nat) 1).2 rfl⟩
  have h := (update_identity_equality (fun _ => []) (⟨1, [5]⟩ : SignalSt Nat) 2).1
    (by decide)
  simpa using h

end Mod

namespace MittEx

theorem emitEx_throws {V : Type} (thr : Nat → Bool) (v : V) :
    ∀ l : List Nat, (∃ h ∈ l, thr h = true) → (emitEx thr v l).2 = true := by
  intro l
  induction l with
  | nil => rintro ⟨h, hh, _⟩; cases hh
  | cons x xs ih =>
    rintro ⟨h, hh, ht⟩
    by_cases hx : thr x = true
    · simp [emitEx, hx]
    · rcases List.mem_cons.mp hh with he | hm
      · subst he; exact absurd ht hx
      · simp [emitEx, hx, ih ⟨h, hm, ht⟩]

/-- Claim C3 counterexample: with observers `[1, 2]` registered in that
order and observer `1` throwing, the exception escapes `update` and
observer `2` — later-registered in the same cycle — is never invoked:
`emit` has no per-handler isolation, so delivery is aborted. -/
theorem emit_throw_aborts_counterexample :
    (update (fun h => h == 1) (⟨0, [1, 2]⟩ : Mod.SignalSt Nat) 5).2.2 = true ∧
    (2, 5) ∉ (update (fun h => h == 1) (⟨0, [1, 2]⟩ : Mod.SignalSt Nat) 5).2.1 := by
  decide

/-- Claim C3 amended: when an observer throws during a delivery cycle, the
exception propagates to the caller and delivery stops at that observer: the
observers invoked are exactly those up to and including the first throwing
one, and every later-registered observer of the cycle is skipped. -/
theorem emitEx_stops_at_first_throw {V : Type} (thr : Nat → Bool) (v : V)
    (l₁ l₂ : List Nat) (h : Nat) (h₁ : ∀ g ∈ l₁, thr g = false)
    (h₂ : thr h = true) :
    emitEx thr v (l₁ ++ h :: l₂) = ((l₁ ++ [h]).map (fun g => (g, v)), true) := by
  induction l₁ with
  | nil => simp [emitEx, h₂]
  | cons x xs ih =>
    have hx : thr x = false := h₁ x (by simp)
    have ih2 := ih (fun g hg => h₁ g (by simp [hg]))
    simp [emitEx, hx, ih2]

/-- Claim C3 amended witness: observers `[0, 1, 2]` with observer `1`
throwing: observers `0` and `1` are invoked, the exception escapes, and
observer `2` is skipped. -/
theorem emitEx_stops_at_first_throw_witness :
    emitEx (fun h => h == 1) (5 : Nat) ([0] ++ 1 :: [2]) = ([(0, 5), (1, 5)], true) := by
  simpa using emitEx_stops_at_first_throw (fun h => h == 1) (5 : Nat) [0] [2] 1
    (by decide) (by decide)

/-- Claim C9: when some observer throws during `Signal.update`'s delivery,
the stored value had already been replaced before delivery began: the
exception escapes `update`, and `get()` on the final state returns the new
value — there is no rollback on observer failure. -/
theorem update_value_set_before_delivery {V : Type} [DecidableEq V]
    (thr : Nat → Bool) (st : Mod.SignalSt V) (v : V) (hne : v ≠ st.val)
    (hthrow : ∃ h ∈ st.handlers, thr h = true) :
    (update thr st v).2.2 = true ∧ (update thr st v).1.val = v := by
  have hne2 : st.val ≠ v := fun e => hne e.symm
  constructor
  · simp only [update, if_pos hne2]
    exact emitEx_throws thr v st.handlers hthrow
  · simp [update, hne2]

/-- Claim C9 witness: a signal holding `0` with observers `[1, 2]` where
observer `1` throws: `update 5` lets the exception escape, and the stored
value is `5` afterwards. -/
theorem update_value_set_before_delivery_witness :
    (update (fun h => h == 1) (⟨0, [1, 2]⟩ : Mod.SignalSt Nat) 5).2.2 = true ∧
    (update (fun h => h == 1) (⟨0, [1, 2]⟩ : Mod.SignalSt Nat) 5).1.val = 5 :=
  update_value_set_before_delivery (fun h => h == 1) ⟨0, [1, 2]⟩ 5 (by decide)
    ⟨1, by decide, by decide⟩

end MittEx

namespace Group

theorem lookupRef_lt {mem : List (Nat × Fields)} {r : Nat} {fs : Fields}
    (hf : lookupRef mem r = some fs) {n : Nat} (hwf : ∀ p ∈ mem, p.1 < n) :
    r < n := by
  induction mem with
  | nil => cases hf
  | cons p rest ih =>
    by_cases hp : p.1 = r
    · subst hp; exact hwf p (by simp)
    · simp only [lookupRef, if_neg hp] at hf
      exact ih hf (fun q hq => hwf q (by simp [hq]))

theorem ubfLoop_eq (H : Heap) (st : GroupSt) (nfs ofs : Fields) :
    ∀ rest : Fields,
    ubfLoop H st nfs ofs rest =
      if hasDiff ofs rest then
        (⟨H.next + 1, (H.next, nfs) :: H.mem⟩, ⟨H.next, st.handlers⟩,
          st.handlers.map (fun h => (h, H.next)))
      else (H, st, []) := by
  intro rest
  induction rest with
  | nil => simp [ubfLoop, hasDiff]
  | cons p rest ih =>
    rcases p with ⟨k, fv⟩
    by_cases hd : fget ofs k = some fv
    · simp [ubfLoop, hasDiff, hd, ih]
    · simp [ubfLoop, hasDiff, hd, Heap.alloc]

theorem hasDiff_eq_any (ofs : Fields) : ∀ nfs : Fields,
    hasDiff ofs nfs = nfs.any (fun p => decide (fget ofs p.1 ≠ some p.2)) := by
  intro nfs
  induction nfs with
  | nil => rfl
  | cons p rest ih =>
    rcases p with ⟨k, fv⟩
    by_cases hd : fget ofs k = some fv
    · simp [hasDiff, hd, ih]
    · simp [hasDiff, hd]

theorem hasDiff_congr (ofs ofs2 : Fields) : ∀ nfs : Fields,
    (∀ k ∈ nfs.map Prod.fst, fget ofs2 k = fget ofs k) →
    hasDiff ofs2 nfs = hasDiff ofs nfs := by
  intro nfs
  induction nfs with
  | nil => intro _; rfl
  | cons p rest ih =>
    rcases p with ⟨k, fv⟩
    intro hag
    have hk : fget ofs2 k = fget ofs k := hag k (by simp)
    have hrest := ih (fun k2 hk2 => hag k2 (by simp [hk2]))
    simp [hasDiff, hk, hrest]

/-- Claim C4: `updateByFields` on an object argument compares, in key
order and only at the keys present on the argument, the argument's fields
against the stored object's, field by field under identity equality
(`hasDiff` is exactly "some key of the new value maps to a differing
field", and is unchanged if the stored object's fields are altered at keys
the argument lacks).  When no key differs, nothing is mutated and nobody is
notified; when a key differs, the stored value becomes a freshly allocated
shallow copy of the argument — a reference unused in the heap, distinct
from both the argument and the previous value, carrying the argument's
fields — and every handler is invoked with it. -/
theorem updateByFields_field_equality (H : Heap) (st : GroupSt) (r : Nat)
    (nfs ofs : Fields) (hwf : H.wf) (hr : H.find r = some nfs)
    (hv : H.find st.val = some ofs) :
    (hasDiff ofs nfs = nfs.any (fun p => decide (fget ofs p.1 ≠ some p.2))) ∧
    (∀ ofs2 : Fields, (∀ k ∈ nfs.map Prod.fst, fget ofs2 k = fget ofs k) →
      hasDiff ofs2 nfs = hasDiff ofs nfs) ∧
    (hasDiff ofs nfs = false → updateByFields H st (.obj r) = .ok (H, st, [])) ∧
    (hasDiff ofs nfs = true →
      updateByFields H st (.obj r) =
        .ok (⟨H.next + 1, (H.next, nfs) :: H.mem⟩, ⟨H.next, st.handlers⟩,
          st.handlers.map (fun h => (h, H.next))) ∧
      H.find H.next = none ∧ H.next ≠ r ∧ H.next ≠ st.val ∧
      Heap.find ⟨H.next + 1, (H.next, nfs) :: H.mem⟩ H.next = some nfs) := by
  have hmain : updateByFields H st (.obj r) = .ok (ubfLoop H st nfs ofs nfs) := by
    simp [updateByFields, hr, hv]
  refine ⟨hasDiff_eq_any ofs nfs, fun ofs2 hag => hasDiff_congr ofs ofs2 nfs hag,
    ?_, ?_⟩
  · intro hfalse
    rw [hmain, ubfLoop_eq, hfalse]
    simp
  · intro htrue
    have hfresh : H.find H.next = none := by
      cases hfind : H.find H.next with
      | none => rfl
      | some fs => exact absurd (lookupRef_lt hfind hwf) (lt_irrefl _)
    refine ⟨?_, hfresh, (lookupRef_lt hr hwf).ne', (lookupRef_lt hv hwf).ne', ?_⟩
    · rw [hmain, ubfLoop_eq, htrue]
      simp
    · simp [Heap.find, lookupRef]

/-- Claim C4 witness: stored object `{x: 0, y: 0}` at reference `0`,
argument `{x: 1, y: 0}` at reference `1`, one observer `4`: the `x` field
differs, so the stored value becomes the fresh reference `2` holding a copy
of the argument's fields and observer `4` is invoked with it. -/
theorem updateByFields_field_equality_witness :
    updateByFields ⟨2, [(0, [("x", 0), ("y", 0)]), (1, [("x", 1), ("y", 0)])]⟩
        ⟨0, [4]⟩ (.obj 1) =
      .ok (⟨3, [(2, [("x", 1), ("y", 0)]), (0, [("x", 0), ("y", 0)]),
          (1, [("x", 1), ("y", 0)])]⟩, ⟨2, [4]⟩, [(4, 2)]) := by
  have h := (updateByFields_field_equality
      ⟨2, [(0, [("x", 0), ("y", 0)]), (1, [("x", 1), ("y", 0)])]⟩ ⟨0, [4]⟩ 1
      [("x", 1), ("y", 0)] [("x", 0), ("y", 0)] (by decide) (by decide)
      (by decide)).2.2.2 (by decide)
  simpa using h.1

/-- Claim C6: `updateByFields` raises `Error("value must be an object")` on
every non-object argument, including `null`.  The embedding returns the
mutated heap, state and invocation trace only on success, so an error
surfaces to the caller with no partial mutation: the stored value is
unchanged and no observer is invoked.  Moreover only object arguments can
return successfully. -/
theorem updateByFields_rejects_non_object (H : Heap) (st : GroupSt) :
    (∀ n : Int, updateByFields H st (.num n) = .error "value must be an object") ∧
    (updateByFields H st .null = .error "value must be an object") ∧
    (∀ v res, updateByFields H st v = .ok res → ∃ r, v = .obj r) := by
  refine ⟨fun n => rfl, rfl, ?_⟩
  intro v res hok
  cases v with
  | num n => simp [updateByFields] at hok
  | null => simp [updateByFields] at hok
  | obj r => exact ⟨r, rfl⟩

/-- Claim C6 witness: `update(5)` and `update(null)` on a group signal both
raise the invalid-argument error. -/
theorem updateByFields_rejects_non_object_witness :
    updateByFields ⟨0, []⟩ ⟨0, []⟩ (.num 5) = .error "value must be an object" ∧
    updateByFields ⟨0, []⟩ ⟨0, []⟩ .null = .error "value must be an object" :=
  ⟨(updateByFields_rejects_non_object ⟨0, []⟩ ⟨0, []⟩).1 5,
    (updateByFields_rejects_non_object ⟨0, []⟩ ⟨0, []⟩).2.1⟩

/-- Claim C10: when `updateByFields` notifies, every observer is invoked
with exactly the freshly stored shallow copy — the reference `get()`
returns afterwards, which carries the argument's fields but is distinct
from the argument object itself. -/
theorem updateByFields_notifies_with_stored_copy (H : Heap) (st : GroupSt)
    (r : Nat) (nfs ofs : Fields) (hwf : H.wf) (hr : H.find r = some nfs)
    (hv : H.find st.val = some ofs) (hdiff : hasDiff ofs nfs = true) :
    ∃ H2 st2 tr, updateByFields H st (.obj r) = .ok (H2, st2, tr) ∧
      tr = st.handlers.map (fun h => (h, st2.val)) ∧ st2.val ≠ r ∧
      H2.find st2.val = some nfs := by
  have hmain : updateByFields H st (.obj r) = .ok (ubfLoop H st nfs ofs nfs) := by
    simp [updateByFields, hr, hv]
  rw [hmain, ubfLoop_eq, hdiff]
  refine ⟨⟨H.next + 1, (H.next, nfs) :: H.mem⟩, ⟨H.next, st.handlers⟩,
    st.handlers.map (fun h => (h, H.next)), by simp, rfl,
    (lookupRef_lt hr hwf).ne', ?_⟩
  simp [Heap.find, lookupRef]

/-- Claim C10 witness: in the concrete scenario of the C4 witness, the
observer is invoked with reference `2` — the stored copy, not the argument
reference `1`. -/
theorem updateByFields_notifies_with_stored_copy_witness :
    ∃ H2 st2 tr,
      updateByFields ⟨2, [(0, [("x", 0), ("y", 0)]), (1, [("x", 1), ("y", 0)])]⟩
          ⟨0, [4]⟩ (.obj 1) = .ok (H2, st2, tr) ∧
        tr = [4].map (fun h => (h, st2.val)) ∧ st2.val ≠ 1 ∧
        H2.find st2.val = some [("x", 1), ("y", 0)] :=
  updateByFields_notifies_with_stored_copy
    ⟨2, [(0, [("x", 0), ("y", 0)]), (1, [("x", 1), ("y", 0)])]⟩ ⟨0, [4]⟩ 1
    [("x", 1), ("y", 0)] [("x", 0), ("y", 0)] (by decide) (by decide) (by decide)
    (by decide)

end Group

namespace Atomic

/-- Claim C7: `subscribe cb` invokes `cb` exactly once with the current
value — synchronously, before returning and before any update — and from
then on behaves exactly like `onChange`: the registration it leaves behind
is `onChange`'s, a subsequent identity-distinct `update` notifies `cb`, and
after running the returned unsubscribe a further `update` does not reach
`cb`. -/
theorem subscribe_immediate {V : Type} [DecidableEq V] (cb : Nat)
    (st : Mod.SignalSt V) (v : V) (hcb : cb ∉ st.handlers) (hne : v ≠ st.val)
    (hlen : st.handlers.length + 1 < 2 ^ 32) :
    (subscribe cb st).2 = [(cb, st.val)] ∧
    (subscribe cb st).1 = onChange cb st ∧
    (cb, v) ∈ (update (subscribe cb st).1 v).2 ∧
    Mitt.off cb (subscribe cb st).1.handlers = st.handlers ∧
    ∀ w, (cb, w) ∉ (update (⟨st.val, Mitt.off cb (subscribe cb st).1.handlers⟩ :
        Mod.SignalSt V) v).2 := by
  have hne2 : st.val ≠ v := fun e => hne e.symm
  have hoff : Mitt.off cb (subscribe cb st).1.handlers = st.handlers := by
    have h := Mitt.off_first_occurrence [] hcb (by simpa using hlen)
    simpa [subscribe, onChange, Mitt.onReg] using h
  refine ⟨rfl, rfl, ?_, hoff, ?_⟩
  · simp [update, subscribe, onChange, Mitt.onReg, hne2]
  · intro w hw
    rw [hoff] at hw
    simp only [update, if_pos hne2] at hw
    rcases List.mem_map.mp hw with ⟨a, ha, he⟩
    cases he
    exact hcb ha

/-- Claim C7 witness: subscribing observer `9` to a signal holding `1`
invokes it once with `1` immediately; a later `update 2` notifies it, and
after the unsubscribe an `update 2` does not. -/
theorem subscribe_immediate_witness :
    (subscribe 9 (⟨1, [5]⟩ : Mod.SignalSt Nat)).2 = [(9, 1)] ∧
    (subscribe 9 (⟨1, [5]⟩ : Mod.SignalSt Nat)).1 = onChange 9 ⟨1, [5]⟩ ∧
    (9, 2) ∈ (update (subscribe 9 (⟨1, [5]⟩ : Mod.SignalSt Nat)).1 2).2 ∧
    Mitt.off 9 (subscribe 9 (⟨1, [5]⟩ : Mod.SignalSt Nat)).1.handlers = [5] ∧
    ∀ w, (9, w) ∉ (update (⟨1, Mitt.off 9 (subscribe 9
        (⟨1, [5]⟩ : Mod.SignalSt Nat)).1.handlers⟩ : Mod.SignalSt Nat) 2).2 :=
  subscribe_immediate 9 ⟨1, [5]⟩ 2 (by decide) (by decide) (by decide)

theorem runSrcHandlers_users (fn : Nat → Nat) (v : Nat) (us : List Nat) :
    ∀ sys : MapSys,
    runSrcHandlers fn v sys (us.map SH.user ++ [SH.mapper]) =
      ((derUpdate sys (fn v)).1,
        us.map (fun h => Ev.src h v) ++ (derUpdate sys (fn v)).2) := by
  induction us with
  | nil => intro sys; simp [runSrcHandlers, runSrcHandler]
  | cons x xs ih => intro sys; simp [runSrcHandlers, runSrcHandler, ih]

/-- Claim C8: `t = s.map(fn)` creates a signal whose initial value is `fn`
of the source's current value; after an identity-distinct source update to
`v` the derived value is `fn v`, and the delivery trace is the source's own
observers (with `v`) followed — when `fn v` differs from the previous
derived value, as in the concrete scenario `fn = (· + 1)`, `s0 = 1`,
`v = 2` — by every observer registered on `t` invoked with `fn v`. -/
theorem map_propagation (fn : Nat → Nat) (s0 v : Nat) (us ds : List Nat)
    (hne : v ≠ s0) :
    (mkMap fn s0 us).derVal = fn s0 ∧
    (srcUpdate fn { mkMap fn s0 us with derHs := ds } v).1.derVal = fn v ∧
    (srcUpdate fn { mkMap fn s0 us with derHs := ds } v).2 =
      us.map (fun h => Ev.src h v) ++
        (if fn v = fn s0 then [] else ds.map (fun h => Ev.der h (fn v))) := by
  have hne2 : s0 ≠ v := fun e => hne e.symm
  refine ⟨rfl, ?_, ?_⟩
  · by_cases hd : fn s0 = fn v
    · simp [srcUpdate, mkMap, hne2, runSrcHandlers_users, derUpdate, hd]
    · simp [srcUpdate, mkMap, hne2, runSrcHandlers_users, derUpdate, hd]
  · by_cases hd : fn s0 = fn v
    · simp [srcUpdate, mkMap, hne2, runSrcHandlers_users, derUpdate, hd]
    · simp [srcUpdate, mkMap, hne2, runSrcHandlers_users, derUpdate, hd,
        Ne.symm hd]

/-- Claim C8 witness: `s = signal(1)`, `t = s.map(x => x + 1)` with observer
`9` on `t`: initially `t.get() = 2`; after `s.update(2)`, `t.get() = 3` and
observer `9` is invoked with `3`. -/
theorem map_propagation_witness :
    (mkMap (fun x => x + 1) 1 []).derVal = 2 ∧
    (srcUpdate (fun x => x + 1)
      { mkMap (fun x => x + 1) 1 [] with derHs := [9] } 2).1.derVal = 3 ∧
    (srcUpdate (fun x => x + 1)
      { mkMap (fun x => x + 1) 1 [] with derHs := [9] } 2).2 = [Ev.der 9 3] := by
  have h := map_propagation (fun x => x + 1) 1 2 [] [9] (by decide)
  exact ⟨h.1, h.2.1, by simpa using h.2.2⟩

end Atomic
